import Mathlib

/-!
Shallow embedding of the tree-search orchestrator `HighsMipSolver::run`
(src/src/mip/HighsMipSolver.cpp) of the HiGHS MIP solver.

The orchestrator's collaborators (node queue, search controller, domain,
LP relaxation) are declared elsewhere in the repository; only their call
sites appear in the embedded file.  They are modelled here from the
specification, with their unknown computational effects supplied by
oracle inputs (lists of per-call results), so every theorem quantifies
over all possible collaborator behaviours.  The orchestrator itself is a
line-by-line transcription of `HighsMipSolver::run`, instrumented to emit
a trace of events recording each collaborator call together with the
observations the claims talk about.

Doubles holding objective bounds are modelled as integers extended with
a top element (`EInt`), since the claims under study concern control flow
and exact bookkeeping, not floating-point rounding.  Machine counters
(`size_t`) are modelled as `Nat`; the only subtraction that occurs,
`num_nodes - plungestart`, is on a monotonically increasing counter, so
`Nat` truncated subtraction coincides with `size_t` arithmetic.
-/

namespace HighsMip

/-- Extended integers: the value lattice for objective bounds, with `top`
playing the role of `kHighsInf` (no incumbent / empty queue). -/
inductive EInt where
  | top : EInt
  | fin : Int → EInt
deriving DecidableEq

/-- Less-or-equal test on extended integers (`top` is the largest). -/
def EInt.ble : EInt → EInt → Bool
  | _, .top => true
  | .top, .fin _ => false
  | .fin a, .fin b => a ≤ b

/-- `std::min` on extended integers (returns the first argument on ties,
as `std::min` does). -/
def EInt.emin (a b : EInt) : EInt := if EInt.ble a b then a else b

/-- Modelled from the spec: an open node of the queue (`Node`, section 3):
a proven lower bound and a branching-quality estimate.  The additional
bound-tightening payload is irrelevant to the orchestrator's bookkeeping
and omitted. -/
structure Node where
  lower_bound : Int
  estimate : Int
deriving DecidableEq

/-- An opaque warm-start basis handle (section 3, `Basis`). -/
abbrev Basis := Nat

/-- Status enum of the relaxation interface (spec section 4.3). -/
inductive LpStatus where
  | Optimal | Infeasible | IterationLimitReached | Error | NotSet
deriving DecidableEq

/-- The relaxation interface state visible to the orchestrator:
iteration limit (`none` = no cap), cumulative LP iteration count, the
stored warm-start basis, and the last solve status. -/
structure Lp where
  iterationLimit : Option Nat
  numLpIterations : Nat
  storedBasis : Option Basis
  status : LpStatus
deriving DecidableEq

/-- Modelled from the spec: the search controller's externally visible
state (section 4.6): the installed node, if any (`hasNode`), and the open
siblings collected during diving. -/
structure SearchS where
  currentNode : Option Node
  openNodes : List Node
deriving DecidableEq

/-- The orchestrator-visible solver data (`HighsMipSolverData` fields used
by `HighsMipSolver::run`). -/
structure MipData where
  nodequeue : List Node
  lower_bound : EInt
  upper_bound : EInt
  upper_limit : EInt
  num_nodes : Nat
  num_leaves : Nat
  last_displeave : Nat
  dispfreq : Nat
  pruned_treeweight : ℚ
  lp : Lp
deriving DecidableEq

/-- Modelled from the spec: `bestLowerBound()` of the node queue
(section 4.1) — the minimum lower bound over all queued nodes; `top`
(infinity) when the queue is empty, so that the orchestrator's
`min(upper_bound, bestLowerBound)` yields the incumbent bound there. -/
def getBestLowerBound (q : List Node) : EInt :=
  q.foldr (fun n acc => EInt.emin (EInt.fin n.lower_bound) acc) EInt.top

/-- Remove the first node minimizing `f` from a list (ties broken by
insertion order: the earlier node wins). -/
def popBy (f : Node → Int) : List Node → Option (Node × List Node)
  | [] => none
  | n :: rest =>
    match popBy f rest with
    | none => some (n, rest)
    | some (m, rest') => if f n ≤ f m then some (n, rest) else some (m, n :: rest')

/-- Modelled from the spec: `popBestBoundNode()` (section 4.1) — removes
and returns the queued node with minimum lower bound, ties broken by
insertion order. -/
def popBestBoundNode (q : List Node) : Option (Node × List Node) :=
  popBy (fun n => n.lower_bound) q

/-- Modelled from the spec: `popBestNode()` (section 4.1) — removes and
returns the queued node with the best (smallest) branching estimate, ties
broken by insertion order. -/
def popBestNode (q : List Node) : Option (Node × List Node) :=
  popBy (fun n => n.estimate) q

/-- Split a list into its initial segment and last element. -/
def splitLast : List Node → Option (List Node × Node)
  | [] => none
  | [a] => some ([], a)
  | a :: b :: r =>
    match splitLast (b :: r) with
    | some (init', last') => some (a :: init', last')
    | none => none

/-- Modelled from the spec: `backtrack()` (section 4.6) — returns to the
most recent unexplored sibling, which becomes the current node; returns
`false` when no sibling remains. -/
def SearchS.backtrack (sr : SearchS) : Bool × SearchS :=
  match splitLast sr.openNodes with
  | none => (false, ⟨none, []⟩)
  | some (init', last') => (true, ⟨some last', init'⟩)

/-- Trace events: one per collaborator call made by `HighsMipSolver::run`,
carrying the observations the verified claims are about.  The constructor
`queryShouldStop` models the external limiter's poll (spec section 5); it
is part of the vocabulary so that claims about polling can be stated. -/
inductive Ev where
  | setLimit : Nat → Ev
  | clearLimit : Ev
  | dive : Ev
  | incLeaves : Ev
  | flushStats : Ev
  | backtrackRes : Bool → Ev
  | estCheck : EInt → EInt → Ev
  | capCheck : Nat → Ev
  | display : Ev
  | pushOpen : List Node → List Node → Ev
  | setLB : EInt → EInt → List Node → Ev
  | propagateEv : Bool → Ev
  | clearQueue : Ev
  | localReset : Ev
  | popBest : Node → List Node → Ev
  | popBestBound : Node → List Node → Ev
  | install : Node → Option Nat → Ev
  | evalNode : Bool → LpStatus → Ev
  | sepa : Ev
  | storeB : Ev
  | getStoredB : Option Basis → Ev
  | setStoredB : Option Basis → Ev
  | recoverB : Ev
  | queryShouldStop : Ev
  | printSolvedRoot : Ev
  | printStartSearch : Ev
deriving DecidableEq

/-- Oracle entry for one iteration of the plunge loop: the effect of the
opaque `search.dive()` call — nodes created, open siblings collected, LP
iterations consumed, and the incumbent bounds after the dive (diving may
find new incumbents). -/
structure PlungeStep where
  nodesAdded : Nat
  opened : List Node
  lpIters : Nat
  upperAfter : EInt
  limitAfter : EInt
deriving DecidableEq

/-- Why the plunge loop of `HighsMipSolver::run` (lines 62-80) ended.
`oracleEmpty` marks exhaustion of the oracle input and corresponds to no
real execution (the concrete loop is `while (true)` with breaks). -/
inductive PlungeExit where
  | backtrackFail | estimateCutoff | nodeCap | oracleEmpty
deriving DecidableEq

/-- Result of the plunge loop. -/
structure PlungeOut where
  s : MipData
  sr : SearchS
  tr : List Ev
  ex : PlungeExit
deriving DecidableEq

/-- The dive effect on the solver state: counters and bounds are updated
by the oracle amounts, the collected open siblings are appended, and the
installed node is consumed (the dive ends at a fathomed leaf). -/
def diveEffect (st : PlungeStep) (s : MipData) (sr : SearchS) : MipData × SearchS :=
  ({ s with
      num_nodes := s.num_nodes + st.nodesAdded
      num_leaves := s.num_leaves + 1
      upper_bound := st.upperAfter
      upper_limit := st.limitAfter
      lp := { s.lp with numLpIterations := s.lp.numLpIterations + st.lpIters } },
   ⟨none, sr.openNodes ++ st.opened⟩)

/-- The plunge loop of `HighsMipSolver::run` (lines 62-80): dive,
increment the leaf count, flush statistics, then break when backtracking
fails, or the current estimate reaches the cutoff, or 1000 nodes were
created since `plungestart`; otherwise print the display line when due
and continue. -/
def plungeLoop (plungestart : Nat) : List PlungeStep → MipData → SearchS → PlungeOut
  | [], s, sr => ⟨s, sr, [], .oracleEmpty⟩
  | st :: steps, s, sr =>
    let (s1, sr1) := diveEffect st s sr
    match sr1.backtrack with
    | (false, sr2) =>
      ⟨s1, sr2, [.dive, .incLeaves, .flushStats, .backtrackRes false], .backtrackFail⟩
    | (true, sr2) =>
      let est : EInt :=
        match sr2.currentNode with
        | some n => EInt.fin n.estimate
        | none => EInt.top
      if EInt.ble s1.upper_limit est then
        ⟨s1, sr2,
          [.dive, .incLeaves, .flushStats, .backtrackRes true,
           .estCheck est s1.upper_limit], .estimateCutoff⟩
      else
        let created := s1.num_nodes - plungestart
        if 1000 ≤ created then
          ⟨s1, sr2,
            [.dive, .incLeaves, .flushStats, .backtrackRes true,
             .estCheck est s1.upper_limit, .capCheck created], .nodeCap⟩
        else
          let (s2, trD) :=
            if s1.dispfreq ≠ 0 ∧ s1.dispfreq ≤ s1.num_leaves - s1.last_displeave then
              ({ s1 with last_displeave := s1.num_leaves }, [Ev.display])
            else (s1, [])
          let out := plungeLoop plungestart steps s2 sr2
          ⟨out.s, out.sr,
            .dive :: .incLeaves :: .flushStats :: .backtrackRes true ::
              .estCheck est s1.upper_limit :: .capCheck created :: (trD ++ out.tr),
            out.ex⟩

/-- Oracle entry for one `search.evaluateNode()` call in the node-install
loop: whether the node came out pruned, the relaxation status observed
after the subsequent separation round, the basis the relaxation would
store, the LP iterations consumed, and the incumbent bounds afterwards
(evaluation may accept a new incumbent). -/
structure EvalResult where
  pruned : Bool
  status : LpStatus
  newBasis : Basis
  lpIters : Nat
  upperAfter : EInt
  limitAfter : EInt
deriving DecidableEq

/-- How an outer iteration of `HighsMipSolver::run` ended:
`infeasibleStop` is the `break` of lines 106-110, `continueSearch` means
control returns to the `while (search.hasNode())` header, `oracleGone`
marks oracle exhaustion (no real execution). -/
inductive IterFlag where
  | infeasibleStop | continueSearch | oracleGone
deriving DecidableEq

/-- Result of the node-install loop and of a whole outer iteration. -/
structure InstOut where
  s : MipData
  sr : SearchS
  basis : Option Basis
  tr : List Ev
  flag : IterFlag
deriving DecidableEq

/-- The head of one round of the node-install loop (lines 128-139): pop
the best-estimate node off the queue, install it, and when the shared
basis handle is non-null, store it into the relaxation and recover it.
Returns the updated solver data and the emitted events. -/
def popInstallStep (s : MipData) (basis : Option Basis) (n : Node)
    (rest : List Node) : MipData × List Ev :=
  let s1 : MipData := { s with nodequeue := rest }
  let lpB : Lp × List Ev :=
    match basis with
    | some b => ({ s1.lp with storedBasis := some b }, [.setStoredB (some b), .recoverB])
    | none => (s1.lp, [])
  ({ s1 with lp := lpB.1 },
    .popBest n s.nodequeue :: .install n s1.lp.iterationLimit :: lpB.2)

/-- The evaluation effect on the solver data (`search.evaluateNode()`,
line 144): LP iterations, status, and possibly a new incumbent. -/
def evalEffect (er : EvalResult) (s : MipData) : MipData :=
  { s with
      upper_bound := er.upperAfter
      upper_limit := er.limitAfter
      lp := { s.lp with
                numLpIterations := s.lp.numLpIterations + er.lpIters
                status := er.status } }

/-- The node-install loop of `HighsMipSolver::run` (lines 127-170):
while the queue is non-empty, pop the best-estimate node, install it,
recover the shared basis handle when non-null, evaluate; a pruned node is
backtracked away, counted, and the global lower bound is recomputed; a
surviving node triggers separation, a conditional `storeBasis`, a refresh
of the shared handle from the stored basis, and the loop breaks. -/
def installLoop : List EvalResult → MipData → SearchS → Option Basis → InstOut
  | [], s, sr, basis =>
    match popBestNode s.nodequeue with
    | none => ⟨s, sr, basis, [], .continueSearch⟩
    | some (n, rest) =>
      let pi := popInstallStep s basis n rest
      ⟨pi.1, ⟨some n, sr.openNodes⟩, basis, pi.2, .oracleGone⟩
  | er :: evals', s, sr, basis =>
    match popBestNode s.nodequeue with
    | none => ⟨s, sr, basis, [], .continueSearch⟩
    | some (n, rest) =>
      let pi := popInstallStep s basis n rest
      let sr1 : SearchS := ⟨some n, sr.openNodes⟩
      let s3 : MipData := evalEffect er pi.1
      if er.pruned then
        let bk := sr1.backtrack
        let s4 : MipData :=
          { s3 with num_leaves := s3.num_leaves + 1, num_nodes := s3.num_nodes + 1 }
        let v : EInt := EInt.emin s4.upper_bound (getBestLowerBound s4.nodequeue)
        let s5 : MipData := { s4 with lower_bound := v }
        let out := installLoop evals' s5 bk.2 basis
        ⟨out.s, out.sr, out.basis,
          pi.2 ++
            (.evalNode true er.status :: .backtrackRes bk.1 :: .incLeaves ::
              .flushStats :: .setLB v s4.upper_bound s4.nodequeue :: out.tr),
          out.flag⟩
      else
        let lpSt : Lp × List Ev :=
          if er.status ≠ LpStatus.Error ∧ er.status ≠ LpStatus.NotSet then
            ({ s3.lp with storedBasis := some er.newBasis }, [Ev.storeB])
          else (s3.lp, [])
        let b' : Option Basis := lpSt.1.storedBasis
        ⟨{ s3 with lp := lpSt.1 }, sr1, b',
          pi.2 ++
            (.evalNode false er.status :: .sepa :: (lpSt.2 ++ [.getStoredB b'])),
          .continueSearch⟩

/-- Oracle for one outer iteration: the plunge-step effects, the outcome
of the global `domain.propagate()` call (infeasibility flag and changed
columns), and the evaluation results consumed by the install loop. -/
structure IterOracle where
  plunge : List PlungeStep
  propInfeasible : Bool
  propChangedCols : List Nat
  evals : List EvalResult
deriving DecidableEq

/-- The adaptive LP iteration limit of lines 56-58: ten times the integer
part of the running average of LP iterations per node (the node count is
clamped to at least one). -/
def adaptLimit (s : MipData) : Nat :=
  10 * (s.lp.numLpIterations / max 1 s.num_nodes)

/-- The solver data right after `setIterationLimit` at the top of the
outer loop (lines 56-58). -/
def adaptState (s : MipData) : MipData :=
  { s with lp := { s.lp with iterationLimit := some (adaptLimit s) } }

/-- The plunge performed by one outer iteration (lines 61-80), starting
from the state with the adaptive limit installed; `plungestart` is the
node count at entry. -/
def outerPlunge (o : IterOracle) (s : MipData) (sr : SearchS) : PlungeOut :=
  plungeLoop s.num_nodes o.plunge (adaptState s) sr

/-- One outer iteration of `HighsMipSolver::run` (lines 52-170): set the
adaptive LP iteration limit, plunge, push the remaining open nodes to the
queue, recompute the global lower bound, print the display line when due,
propagate the global domain (clearing the queue, marking the tree fully
pruned and breaking on infeasibility), reset the local domain when global
bounds changed, clear the iteration limit, and run the install loop. -/
def outerIteration (o : IterOracle) (s : MipData) (sr : SearchS)
    (basis : Option Basis) : InstOut :=
  let lim : Nat := adaptLimit s
  let pl := outerPlunge o s sr
  if pl.ex = PlungeExit.oracleEmpty then
    ⟨pl.s, pl.sr, basis, .setLimit lim :: pl.tr, .oracleGone⟩
  else
    let pushed : List Node := pl.sr.openNodes ++ pl.sr.currentNode.toList
    let q' : List Node := pl.s.nodequeue ++ pushed
    let v : EInt := EInt.emin pl.s.upper_bound (getBestLowerBound q')
    let s1 : MipData := { pl.s with nodequeue := q', lower_bound := v }
    let sD : MipData × List Ev :=
      if s1.dispfreq ≠ 0 ∧ s1.dispfreq ≤ s1.num_leaves - s1.last_displeave then
        ({ s1 with last_displeave := s1.num_leaves }, [Ev.display])
      else (s1, [])
    if o.propInfeasible then
      ⟨{ sD.1 with nodequeue := [], pruned_treeweight := 1 }, ⟨none, []⟩, basis,
        .setLimit lim :: pl.tr ++
          (.pushOpen pushed q' :: .setLB v pl.s.upper_bound q' ::
            (sD.2 ++ [.propagateEv true, .clearQueue])),
        .infeasibleStop⟩
    else
      let trChg : List Ev := if o.propChangedCols ≠ [] then [Ev.localReset] else []
      let s2 : MipData := { sD.1 with lp := { sD.1.lp with iterationLimit := none } }
      let il := installLoop o.evals s2 ⟨none, []⟩ basis
      ⟨il.s, il.sr, il.basis,
        .setLimit lim :: pl.tr ++
          (.pushOpen pushed q' :: .setLB v pl.s.upper_bound q' ::
            (sD.2 ++ (.propagateEv false :: trChg ++ (.clearLimit :: il.tr)))),
        il.flag⟩

/-- Result of the tree-search loop. -/
structure LoopOut where
  s : MipData
  sr : SearchS
  basis : Option Basis
  tr : List Ev
deriving DecidableEq

/-- The tree-search loop of `HighsMipSolver::run` (lines 52-171): while
the controller holds a node, run outer iterations, stopping early on the
infeasibility break (or when the oracle input runs out). -/
def runLoop : List IterOracle → MipData → SearchS → Option Basis → LoopOut
  | [], s, sr, b => ⟨s, sr, b, []⟩
  | o :: os, s, sr, b =>
    match sr.currentNode with
    | none => ⟨s, sr, b, []⟩
    | some _ =>
      let it := outerIteration o s sr b
      match it.flag with
      | .continueSearch =>
        let rest := runLoop os it.s it.sr it.basis
        ⟨rest.s, rest.sr, rest.basis, it.tr ++ rest.tr⟩
      | _ => ⟨it.s, it.sr, it.basis, it.tr⟩

/-- Result of `HighsMipSolver::run`. -/
structure RunOut where
  s : MipData
  tr : List Ev
  solvedInRoot : Bool
deriving DecidableEq

/-- `HighsMipSolver::run` (lines 28-175) from the point where the root
node has been evaluated: `root` is the solver data produced by `setup()`
and `evaluateRootNode()` (their effects are outside this file's sources
and enter as an input).  If the queue is empty the solver reports that
the model was solved in the root node and returns; otherwise it seeds the
global lower bound, installs the best-bound node, and enters the
tree-search loop. -/
def run (root : MipData) (iters : List IterOracle) : RunOut :=
  if root.nodequeue = [] then ⟨root, [.printSolvedRoot], true⟩
  else
    let s1 : MipData := { root with lower_bound := getBestLowerBound root.nodequeue }
    match popBestBoundNode s1.nodequeue with
    | none => ⟨s1, [.printStartSearch], false⟩
    | some (n, rest) =>
      let s2 : MipData := { s1 with nodequeue := rest }
      let lo := runLoop iters s2 ⟨some n, []⟩ none
      ⟨lo.s,
        .printStartSearch :: .popBestBound n s1.nodequeue ::
          .install n s2.lp.iterationLimit :: lo.tr,
        false⟩


/-- A fresh relaxation-interface state: no iteration limit, no iterations
performed, no stored basis, status not set. -/
def lpN : Lp := ⟨none, 0, none, .NotSet⟩

/-- A solver-data state over a given queue: no bounds known, one node
counted (the root), display reporting off. -/
def mkMD (q : List Node) : MipData := ⟨q, .top, .top, .top, 1, 0, 0, 0, 0, lpN⟩

/-- An evaluation oracle entry for a node that survives pruning with an
optimal relaxation. -/
def erOpt : EvalResult := ⟨false, .Optimal, 42, 7, .top, .top⟩

/-- An evaluation oracle entry for a surviving node whose relaxation
status is `Error` at the separation point. -/
def erErr : EvalResult := ⟨false, .Error, 42, 7, .top, .top⟩

/-- A dive after which no open sibling remains, so backtracking fails. -/
def stepFail : PlungeStep := ⟨0, [], 0, .top, .top⟩

/-- A dive creating 1000 nodes and collecting one open sibling, driving
the plunge into the node cap. -/
def stepCap : PlungeStep := ⟨1000, [⟨2, 2⟩], 5, .top, .top⟩

/-- An outer-iteration oracle whose global propagation reports the domain
infeasible. -/
def oInf : IterOracle := ⟨[stepFail], true, [], []⟩

/-- An outer-iteration oracle for a normal iteration: one-dive plunge,
feasible propagation, one surviving evaluation. -/
def oCont : IterOracle := ⟨[stepFail], false, [], [erOpt]⟩

/-- An outer-iteration oracle whose plunge stops at the 1000-node cap. -/
def oCap : IterOracle := ⟨[stepCap], false, [], [erOpt]⟩

/-- Checks that every node-install event of a trace installs the given
node. -/
def onlyInstalls (n0 : Node) (tr : List Ev) : Bool :=
  tr.all fun e =>
    match e with
    | .install n _ => n == n0
    | _ => true

/-- The events the plunge loop can emit. -/
def plungeEv : Ev → Bool
  | .dive | .incLeaves | .flushStats | .backtrackRes _ | .estCheck _ _
  | .capCheck _ | .display => true
  | _ => false

/-- Recognizer for `setLB` events. -/
def isSetLB : Ev → Bool
  | .setLB _ _ _ => true
  | _ => false

/-- Recognizer for evaluations that came out pruned. -/
def isPrunedEval : Ev → Bool
  | .evalNode true _ => true
  | _ => false

/-- Recognizer for the `dive` event. -/
def isDive : Ev → Bool
  | .dive => true
  | _ => false

/-- Checks that every `dive` event is immediately followed by the
leaf-count increment and the statistics flush, in that order. -/
def diveFollowed : List Ev → Bool
  | [] => true
  | .dive :: rest =>
    match rest with
    | .incLeaves :: .flushStats :: r2 => diveFollowed r2
    | _ => false
  | _ :: rest => diveFollowed rest

/-- The events the node-install loop can emit. -/
def instEv : Ev → Bool
  | .popBest _ _ | .install _ _ | .setStoredB _ | .recoverB | .evalNode _ _
  | .backtrackRes _ | .incLeaves | .flushStats | .setLB _ _ _ | .sepa
  | .storeB | .getStoredB _ => true
  | _ => false

theorem plungeLoop_tr_mem (ps : Nat) (steps : List PlungeStep) (s : MipData)
    (sr : SearchS) : ∀ e ∈ (plungeLoop ps steps s sr).tr, plungeEv e = true := by
  induction steps generalizing s sr with
  | nil => simp [plungeLoop]
  | cons st steps ih =>
    intro e he
    simp only [plungeLoop, diveEffect] at he
    split at he
    · simp only [List.mem_cons, List.not_mem_nil, or_false] at he
      rcases he with h | h | h | h <;> subst h <;> rfl
    · split at he
      · simp only [List.mem_cons, List.not_mem_nil, or_false] at he
        rcases he with h | h | h | h | h <;> subst h <;> rfl
      · split at he
        · simp only [List.mem_cons, List.not_mem_nil, or_false] at he
          rcases he with h | h | h | h | h | h <;> subst h <;> rfl
        · simp only [List.mem_cons] at he
          rcases he with h | h | h | h | h | h | h
          · subst h; rfl
          · subst h; rfl
          · subst h; rfl
          · subst h; rfl
          · subst h; rfl
          · subst h; rfl
          · rcases List.mem_append.mp h with h | h
            · split at h <;> simp_all <;> subst h <;> rfl
            · exact ih _ _ e h

theorem popBy_eq_none (f : Node → Int) (q : List Node) :
    popBy f q = none ↔ q = [] := by
  cases q with
  | nil => simp [popBy]
  | cons n rest =>
    simp only [popBy]
    rcases popBy f rest with _ | ⟨m, rest'⟩ <;> simp <;> split <;> simp

theorem popInstallStep_mem (s : MipData) (b : Option Basis) (n : Node)
    (rest : List Node) (e : Ev) :
    e ∈ (popInstallStep s b n rest).2 ↔
      e = .popBest n s.nodequeue ∨ e = .install n s.lp.iterationLimit ∨
        (b.isSome = true ∧ (e = .setStoredB b ∨ e = .recoverB)) := by
  cases b <;> simp [popInstallStep]

@[simp] theorem popInstallStep_limit (s : MipData) (b : Option Basis) (n : Node)
    (rest : List Node) :
    (popInstallStep s b n rest).1.lp.iterationLimit = s.lp.iterationLimit := by
  cases b <;> rfl

@[simp] theorem popInstallStep_nodequeue (s : MipData) (b : Option Basis) (n : Node)
    (rest : List Node) : (popInstallStep s b n rest).1.nodequeue = rest := by
  cases b <;> rfl

@[simp] theorem popInstallStep_stored (s : MipData) (b : Option Basis) (n : Node)
    (rest : List Node) :
    (popInstallStep s b n rest).1.lp.storedBasis =
      (if b.isSome then b else s.lp.storedBasis) := by
  cases b <;> rfl

@[simp] theorem evalEffect_limit (er : EvalResult) (s : MipData) :
    (evalEffect er s).lp.iterationLimit = s.lp.iterationLimit := rfl

@[simp] theorem evalEffect_stored (er : EvalResult) (s : MipData) :
    (evalEffect er s).lp.storedBasis = s.lp.storedBasis := rfl

@[simp] theorem evalEffect_nodequeue (er : EvalResult) (s : MipData) :
    (evalEffect er s).nodequeue = s.nodequeue := rfl

theorem installLoop_tr_mem (evals : List EvalResult) (s : MipData) (sr : SearchS)
    (b : Option Basis) : ∀ e ∈ (installLoop evals s sr b).tr, instEv e = true := by
  induction evals generalizing s sr b with
  | nil =>
    intro e he
    simp only [installLoop] at he
    split at he
    · simp at he
    · rcases (popInstallStep_mem _ _ _ _ _).mp he with h | h | ⟨_, h | h⟩ <;>
        subst h <;> rfl
  | cons er evals' ih =>
    intro e he
    simp only [installLoop] at he
    split at he
    · simp at he
    · split at he <;> rcases List.mem_append.mp he with h | h
      · rcases (popInstallStep_mem _ _ _ _ _).mp h with h | h | ⟨_, h | h⟩ <;>
          subst h <;> rfl
      · simp only [List.mem_cons] at h
        rcases h with h | h | h | h | h | h
        · subst h; rfl
        · subst h; rfl
        · subst h; rfl
        · subst h; rfl
        · subst h; rfl
        · exact ih _ _ _ e h
      · rcases (popInstallStep_mem _ _ _ _ _).mp h with h | h | ⟨_, h | h⟩ <;>
          subst h <;> rfl
      · simp only [List.mem_cons] at h
        rcases h with h | h | h
        · subst h; rfl
        · subst h; rfl
        · rcases List.mem_append.mp h with h | h
          · split at h <;> simp only [List.mem_cons, List.not_mem_nil, or_false] at h
            subst h; rfl
          · simp only [List.mem_cons, List.not_mem_nil, or_false] at h
            subst h; rfl

theorem installLoop_install_limit (evals : List EvalResult) (s : MipData)
    (sr : SearchS) (b : Option Basis) :
    ∀ n l, Ev.install n l ∈ (installLoop evals s sr b).tr →
      l = s.lp.iterationLimit := by
  induction evals generalizing s sr b with
  | nil =>
    intro n l he
    simp only [installLoop] at he
    split at he
    · simp at he
    · rcases (popInstallStep_mem _ _ _ _ _).mp he with h | h | ⟨_, h | h⟩ <;>
        simp_all
  | cons er evals' ih =>
    intro n l he
    simp only [installLoop] at he
    split at he
    · simp at he
    · split at he <;> rcases List.mem_append.mp he with h | h
      · rcases (popInstallStep_mem _ _ _ _ _).mp h with h | h | ⟨_, h | h⟩ <;>
          simp_all
      · simp only [List.mem_cons] at h
        rcases h with h | h | h | h | h | h <;> try simp_all
        have := ih _ _ _ _ _ h
        simpa using this
      · rcases (popInstallStep_mem _ _ _ _ _).mp h with h | h | ⟨_, h | h⟩ <;>
          simp_all
      · simp only [List.mem_cons] at h
        rcases h with h | h | h
        · simp_all
        · simp_all
        · rcases List.mem_append.mp h with h | h
          · split at h <;> simp_all
          · simp_all

theorem installLoop_popBest (evals : List EvalResult) (s : MipData)
    (sr : SearchS) (b : Option Basis) :
    ∀ n q, Ev.popBest n q ∈ (installLoop evals s sr b).tr →
      ∃ r2, popBestNode q = some (n, r2) := by
  induction evals generalizing s sr b with
  | nil =>
    intro n q he
    simp only [installLoop] at he
    split at he
    · simp at he
    · rename_i n' rest' hq
      rcases (popInstallStep_mem _ _ _ _ _).mp he with h | h | ⟨_, h | h⟩ <;>
        simp_all
  | cons er evals' ih =>
    intro n q he
    simp only [installLoop] at he
    split at he
    · simp at he
    · rename_i n' rest' hq
      split at he <;> rcases List.mem_append.mp he with h | h
      · rcases (popInstallStep_mem _ _ _ _ _).mp h with h | h | ⟨_, h | h⟩ <;>
          simp_all
      · simp only [List.mem_cons] at h
        rcases h with h | h | h | h | h | h <;> try simp_all
        exact ih _ _ _ _ _ h
      · rcases (popInstallStep_mem _ _ _ _ _).mp h with h | h | ⟨_, h | h⟩ <;>
          simp_all
      · simp only [List.mem_cons] at h
        rcases h with h | h | h
        · simp_all
        · simp_all
        · rcases List.mem_append.mp h with h | h
          · split at h <;> simp_all
          · simp_all

theorem installLoop_setLB (evals : List EvalResult) (s : MipData)
    (sr : SearchS) (b : Option Basis) :
    ∀ v ub q, Ev.setLB v ub q ∈ (installLoop evals s sr b).tr →
      v = EInt.emin ub (getBestLowerBound q) := by
  induction evals generalizing s sr b with
  | nil =>
    intro v ub q he
    simp only [installLoop] at he
    split at he
    · simp at he
    · rcases (popInstallStep_mem _ _ _ _ _).mp he with h | h | ⟨_, h | h⟩ <;>
        simp_all
  | cons er evals' ih =>
    intro v ub q he
    simp only [installLoop] at he
    split at he
    · simp at he
    · split at he <;> rcases List.mem_append.mp he with h | h
      · rcases (popInstallStep_mem _ _ _ _ _).mp h with h | h | ⟨_, h | h⟩ <;>
          simp_all
      · simp only [List.mem_cons] at h
        rcases h with h | h | h | h | h | h <;> try (exact ih _ _ _ _ _ _ h)
        all_goals simp_all
      · rcases (popInstallStep_mem _ _ _ _ _).mp h with h | h | ⟨_, h | h⟩ <;>
          simp_all
      · simp only [List.mem_cons] at h
        rcases h with h | h | h
        · simp_all
        · simp_all
        · rcases List.mem_append.mp h with h | h
          · split at h <;> simp_all
          · simp_all

theorem popInstallStep_countP (s : MipData) (b : Option Basis) (n : Node)
    (rest : List Node) (p : Ev → Bool) (h1 : ∀ q, p (.popBest n q) = false)
    (h2 : ∀ l, p (.install n l) = false) (h3 : ∀ ob, p (.setStoredB ob) = false)
    (h4 : p .recoverB = false) :
    (popInstallStep s b n rest).2.countP p = 0 := by
  cases b <;>
    simp [popInstallStep, List.countP, List.countP.go, h1, h2, h3, h4]

theorem installLoop_countP (evals : List EvalResult) (s : MipData)
    (sr : SearchS) (b : Option Basis) :
    (installLoop evals s sr b).tr.countP isSetLB =
      (installLoop evals s sr b).tr.countP isPrunedEval := by
  induction evals generalizing s sr b with
  | nil =>
    simp only [installLoop]
    split
    · rfl
    · rw [popInstallStep_countP, popInstallStep_countP] <;> intros <;> rfl
  | cons er evals' ih =>
    simp only [installLoop]
    split
    · rfl
    · split
      · simp only [List.countP_append, List.countP_cons]
        rw [popInstallStep_countP, popInstallStep_countP]
        · simp only [isSetLB, isPrunedEval]
          rw [ih]
          ring
        all_goals intros; rfl
      · simp only [List.countP_append, List.countP_cons]
        rw [popInstallStep_countP, popInstallStep_countP]
        · split <;> simp [List.countP, List.countP.go, isSetLB, isPrunedEval]
        all_goals intros; rfl

theorem installLoop_recoverB (evals : List EvalResult) (s : MipData)
    (sr : SearchS) (b : Option Basis) :
    Ev.recoverB ∈ (installLoop evals s sr b).tr ↔
      (b.isSome = true ∧ s.nodequeue ≠ []) := by
  constructor
  · intro he
    induction evals generalizing s sr b with
    | nil =>
      simp only [installLoop] at he
      split at he
      · simp at he
      · rename_i n' rest' hq
        have hne : s.nodequeue ≠ [] := by
          intro h0
          rw [show popBestNode s.nodequeue = none from by
            simpa [h0] using (popBy_eq_none _ _).mpr rfl] at hq
          cases hq
        rcases (popInstallStep_mem _ _ _ _ _).mp he with h | h | ⟨hb, _⟩ <;>
          simp_all
    | cons er evals' ih =>
      simp only [installLoop] at he
      split at he
      · simp at he
      · rename_i n' rest' hq
        have hne : s.nodequeue ≠ [] := by
          intro h0
          rw [show popBestNode s.nodequeue = none from by
            simpa [h0] using (popBy_eq_none _ _).mpr rfl] at hq
          cases hq
        split at he <;> rcases List.mem_append.mp he with h | h
        · rcases (popInstallStep_mem _ _ _ _ _).mp h with h | h | ⟨hb, _⟩ <;>
            simp_all
        · simp only [List.mem_cons] at h
          rcases h with h | h | h | h | h | h <;> try simp_all
          exact (ih _ _ _ h).1
        · rcases (popInstallStep_mem _ _ _ _ _).mp h with h | h | ⟨hb, _⟩ <;>
            simp_all
        · simp only [List.mem_cons] at h
          rcases h with h | h | h
          · simp_all
          · simp_all
          · rcases List.mem_append.mp h with h | h
            · split at h <;> simp_all
            · simp_all
  · rintro ⟨hb, hq⟩
    rcases b with _ | bb
    · cases hb
    have : ∃ pr, popBestNode s.nodequeue = some pr := by
      rcases h : popBestNode s.nodequeue with _ | pr
      · exact absurd ((popBy_eq_none _ _).mp h) hq
      · exact ⟨pr, rfl⟩
    rcases this with ⟨⟨n', rest'⟩, hpop⟩
    cases evals with
    | nil =>
      simp only [installLoop, hpop]
      have : Ev.recoverB ∈ (popInstallStep s (some bb) n' rest').2 := by
        simp [popInstallStep]
      simpa using this
    | cons er evals' =>
      simp only [installLoop, hpop]
      have hmem : Ev.recoverB ∈ (popInstallStep s (some bb) n' rest').2 := by
        simp [popInstallStep]
      split <;> exact List.mem_append.mpr (Or.inl hmem)

theorem installLoop_storeBasis (evals : List EvalResult) (s : MipData)
    (sr : SearchS) (b : Option Basis) :
    ∀ st, Ev.evalNode false st ∈ (installLoop evals s sr b).tr →
      ((st = LpStatus.Error ∨ st = LpStatus.NotSet) →
        Ev.storeB ∉ (installLoop evals s sr b).tr ∧
          (installLoop evals s sr b).basis =
            (if b.isSome then b else s.lp.storedBasis)) ∧
      (st ≠ LpStatus.Error → st ≠ LpStatus.NotSet →
        Ev.storeB ∈ (installLoop evals s sr b).tr) := by
  induction evals generalizing s sr b with
  | nil =>
    intro st he
    rcases hq : popBestNode s.nodequeue with _ | ⟨n', rest'⟩ <;>
      simp only [installLoop, hq] at he
    · simp at he
    · rcases (popInstallStep_mem _ _ _ _ _).mp he with h | h | ⟨_, h | h⟩ <;>
        exact absurd h (by simp)
  | cons er evals' ih =>
    intro st he
    rcases hq : popBestNode s.nodequeue with _ | ⟨n', rest'⟩ <;>
      simp only [installLoop, hq] at he ⊢
    · simp at he
    · by_cases hpr : er.pruned = true <;>
        simp only [hpr, if_true, Bool.false_eq_true, if_false] at he ⊢
      · rcases List.mem_append.mp he with h | h
        · exact absurd ((popInstallStep_mem _ _ _ _ _).mp h) (by
            rintro (h | h | ⟨_, h | h⟩) <;> exact absurd h (by simp))
        · simp only [List.mem_cons] at h
          rcases h with h | h | h | h | h | h
          · exact absurd h (by simp)
          · exact absurd h (by simp)
          · exact absurd h (by simp)
          · exact absurd h (by simp)
          · exact absurd h (by simp)
          · have hih := ih _ _ b st h
            refine ⟨fun hse => ?_, fun h1 h2 => ?_⟩
            · rcases hih.1 hse with ⟨hnot, hbeq⟩
              refine ⟨fun hmem => ?_, ?_⟩
              · rcases List.mem_append.mp hmem with hm | hm
                · exact absurd ((popInstallStep_mem _ _ _ _ _).mp hm) (by
                    rintro (hm | hm | ⟨_, hm | hm⟩) <;> exact absurd hm (by simp))
                · simp only [List.mem_cons] at hm
                  rcases hm with hm | hm | hm | hm | hm | hm
                  · exact absurd hm (by simp)
                  · exact absurd hm (by simp)
                  · exact absurd hm (by simp)
                  · exact absurd hm (by simp)
                  · exact absurd hm (by simp)
                  · exact hnot hm
              · rw [hbeq]
                cases b <;> simp
            · refine List.mem_append.mpr (Or.inr ?_)
              simp only [List.mem_cons]
              exact Or.inr (Or.inr (Or.inr (Or.inr (Or.inr (hih.2 h1 h2)))))
      · have hst : st = er.status := by
          rcases List.mem_append.mp he with h | h
          · exact absurd ((popInstallStep_mem _ _ _ _ _).mp h) (by
              rintro (h | h | ⟨_, h | h⟩) <;> exact absurd h (by simp))
          · simp only [List.mem_cons] at h
            rcases h with h | h | h
            · exact congrArg (fun e => match e with
                | Ev.evalNode _ st0 => st0
                | _ => st) h
            · exact absurd h (by simp)
            · rcases List.mem_append.mp h with h | h
              · exact absurd h (by
                  intro hmem
                  split at hmem <;>
                    simp only [List.mem_cons, List.not_mem_nil, or_false] at hmem
                  exact absurd hmem (by simp))
              · simp only [List.mem_singleton] at h
                exact absurd h (by simp)
        subst hst
        by_cases hc : er.status ≠ LpStatus.Error ∧ er.status ≠ LpStatus.NotSet
        · rw [if_pos hc] at he ⊢
          refine ⟨fun hse => ?_, fun _ _ => ?_⟩
          · rcases hc with ⟨h1, h2⟩
            rcases hse with h | h
            · exact absurd h h1
            · exact absurd h h2
          · refine List.mem_append.mpr (Or.inr ?_)
            simp
        · rw [if_neg hc] at he ⊢
          refine ⟨fun _ => ⟨fun hmem => ?_, ?_⟩, fun h1 h2 => absurd ⟨h1, h2⟩ hc⟩
          · rcases List.mem_append.mp hmem with hm | hm
            · exact absurd ((popInstallStep_mem _ _ _ _ _).mp hm) (by
                rintro (hm | hm | ⟨_, hm | hm⟩) <;> exact absurd hm (by simp))
            · simp only [List.mem_cons, List.mem_append, List.not_mem_nil,
                List.mem_singleton, or_false] at hm
              rcases hm with hm | hm | hm <;> exact absurd hm (by simp)
          · cases b <;> simp

theorem outerIteration_head (o : IterOracle) (s : MipData) (sr : SearchS)
    (b : Option Basis) :
    (outerIteration o s sr b).tr.head? = some (Ev.setLimit (adaptLimit s)) := by
  simp only [outerIteration]
  split
  · rfl
  · split <;> rfl

/-- Complete case analysis of the events an outer iteration can emit. -/
theorem outerIteration_tr_decomp (o : IterOracle) (s : MipData) (sr : SearchS)
    (b : Option Basis) :
    ∀ e ∈ (outerIteration o s sr b).tr,
      e = Ev.setLimit (adaptLimit s) ∨
      e ∈ (outerPlunge o s sr).tr ∨
      e = Ev.pushOpen
            ((outerPlunge o s sr).sr.openNodes ++
              (outerPlunge o s sr).sr.currentNode.toList)
            ((outerPlunge o s sr).s.nodequeue ++
              ((outerPlunge o s sr).sr.openNodes ++
                (outerPlunge o s sr).sr.currentNode.toList)) ∨
      (∃ ub q, e = Ev.setLB (EInt.emin ub (getBestLowerBound q)) ub q) ∨
      e = Ev.display ∨ e = Ev.propagateEv o.propInfeasible ∨ e = Ev.clearQueue ∨
      e = Ev.localReset ∨ e = Ev.clearLimit ∨
      (∃ s2 : MipData, s2.lp.iterationLimit = none ∧
        e ∈ (installLoop o.evals s2 ⟨none, []⟩ b).tr) := by
  intro e he
  simp only [outerIteration] at he
  split at he
  · rcases List.mem_cons.mp he with h | h
    · exact Or.inl h
    · exact Or.inr (Or.inl h)
  · split at he
    · rename_i hprop
      rcases List.mem_cons.mp he with h | he2
      · exact Or.inl h
      rcases List.mem_append.mp he2 with h | he3
      · exact Or.inr (Or.inl h)
      rcases List.mem_cons.mp he3 with h | he4
      · exact Or.inr (Or.inr (Or.inl h))
      rcases List.mem_cons.mp he4 with h | he5
      · exact Or.inr (Or.inr (Or.inr (Or.inl ⟨_, _, h⟩)))
      rcases List.mem_append.mp he5 with h | he6
      · split at h <;> simp only [List.mem_cons, List.not_mem_nil, or_false] at h
        exact Or.inr (Or.inr (Or.inr (Or.inr (Or.inl h))))
      rcases List.mem_cons.mp he6 with h | he7
      · exact Or.inr (Or.inr (Or.inr (Or.inr (Or.inr (Or.inl (by rw [hprop]; exact h))))))
      simp only [List.mem_singleton] at he7
      exact Or.inr (Or.inr (Or.inr (Or.inr (Or.inr (Or.inr (Or.inl he7))))))
    · rename_i hprop
      have hpf : o.propInfeasible = false := by simpa using hprop
      rcases List.mem_cons.mp he with h | he2
      · exact Or.inl h
      rcases List.mem_append.mp he2 with h | he3
      · exact Or.inr (Or.inl h)
      rcases List.mem_cons.mp he3 with h | he4
      · exact Or.inr (Or.inr (Or.inl h))
      rcases List.mem_cons.mp he4 with h | he5
      · exact Or.inr (Or.inr (Or.inr (Or.inl ⟨_, _, h⟩)))
      rcases List.mem_append.mp he5 with h | he6
      · split at h <;> simp only [List.mem_cons, List.not_mem_nil, or_false] at h
        exact Or.inr (Or.inr (Or.inr (Or.inr (Or.inl h))))
      rcases List.mem_cons.mp he6 with h | he7
      · exact Or.inr (Or.inr (Or.inr (Or.inr (Or.inr (Or.inl (by rw [hpf]; exact h))))))
      rcases List.mem_append.mp he7 with h | he8
      · split at h <;> simp only [List.mem_cons, List.not_mem_nil, or_false] at h
        exact Or.inr (Or.inr (Or.inr (Or.inr (Or.inr (Or.inr (Or.inr (Or.inl h)))))))
      rcases List.mem_cons.mp he8 with h | he9
      · exact Or.inr (Or.inr (Or.inr (Or.inr (Or.inr (Or.inr (Or.inr (Or.inr (Or.inl h))))))))
      exact Or.inr (Or.inr (Or.inr (Or.inr (Or.inr (Or.inr (Or.inr (Or.inr (Or.inr ⟨_, rfl, he9⟩))))))))

theorem outerIteration_install_limit (o : IterOracle) (s : MipData) (sr : SearchS)
    (b : Option Basis) :
    ∀ n l, Ev.install n l ∈ (outerIteration o s sr b).tr → l = none := by
  intro n l he
  rcases outerIteration_tr_decomp o s sr b _ he with
    h | h | h | ⟨ub, q, h⟩ | h | h | h | h | h | ⟨s2, hs2, h⟩
  · exact absurd h (by simp)
  · exact absurd (plungeLoop_tr_mem _ _ _ _ _ h) (by simp [plungeEv])
  · exact absurd h (by simp)
  · exact absurd h (by simp)
  · exact absurd h (by simp)
  · exact absurd h (by simp)
  · exact absurd h (by simp)
  · exact absurd h (by simp)
  · exact absurd h (by simp)
  · rw [installLoop_install_limit _ _ _ _ _ _ h]
    exact hs2

theorem plungeEv_not_isSetLB (e : Ev) (h : plungeEv e = true) : isSetLB e = false := by
  cases e <;> simp_all [plungeEv, isSetLB]

theorem plungeEv_not_isPrunedEval (e : Ev) (h : plungeEv e = true) :
    isPrunedEval e = false := by
  cases e <;> simp_all [plungeEv, isPrunedEval]

theorem installLoop_no_query (evals : List EvalResult) (s : MipData) (sr : SearchS)
    (b : Option Basis) : Ev.queryShouldStop ∉ (installLoop evals s sr b).tr := by
  intro h
  simpa [instEv] using installLoop_tr_mem _ _ _ _ _ h

theorem outerIteration_no_query (o : IterOracle) (s : MipData) (sr : SearchS)
    (b : Option Basis) : Ev.queryShouldStop ∉ (outerIteration o s sr b).tr := by
  intro hmem
  rcases outerIteration_tr_decomp o s sr b _ hmem with
    h | h | h | ⟨ub, q, h⟩ | h | h | h | h | h | ⟨s2, _, h⟩
  · exact absurd h (by simp)
  · exact absurd (plungeLoop_tr_mem _ _ _ _ _ h) (by simp [plungeEv])
  · exact absurd h (by simp)
  · exact absurd h (by simp)
  · exact absurd h (by simp)
  · exact absurd h (by simp)
  · exact absurd h (by simp)
  · exact absurd h (by simp)
  · exact absurd h (by simp)
  · exact installLoop_no_query _ _ _ _ h

theorem outerIteration_setLB_formula (o : IterOracle) (s : MipData) (sr : SearchS)
    (b : Option Basis) :
    ∀ v ub q, Ev.setLB v ub q ∈ (outerIteration o s sr b).tr →
      v = EInt.emin ub (getBestLowerBound q) := by
  intro v ub q hmem
  rcases outerIteration_tr_decomp o s sr b _ hmem with
    h | h | h | ⟨ub2, q2, h⟩ | h | h | h | h | h | ⟨s2, _, h⟩
  · exact absurd h (by simp)
  · exact absurd (plungeLoop_tr_mem _ _ _ _ _ h) (by simp [plungeEv])
  · exact absurd h (by simp)
  · rw [show v = EInt.emin ub2 (getBestLowerBound q2) from by
        injection h with h1 h2 h3,
      show ub = ub2 from by injection h with h1 h2 h3,
      show q = q2 from by injection h with h1 h2 h3]
  · exact absurd h (by simp)
  · exact absurd h (by simp)
  · exact absurd h (by simp)
  · exact absurd h (by simp)
  · exact absurd h (by simp)
  · exact installLoop_setLB _ _ _ _ _ _ _ h

theorem runLoop_no_query (iters : List IterOracle) (s : MipData) (sr : SearchS)
    (b : Option Basis) : Ev.queryShouldStop ∉ (runLoop iters s sr b).tr := by
  induction iters generalizing s sr b with
  | nil => simp [runLoop]
  | cons o os ih =>
    intro hmem
    simp only [runLoop] at hmem
    split at hmem
    · simp at hmem
    · split at hmem
      · simp only [List.mem_append] at hmem
        rcases hmem with h | h
        · exact outerIteration_no_query _ _ _ _ h
        · exact ih _ _ _ h
      · exact outerIteration_no_query _ _ _ _ hmem

theorem outerIteration_infeasible (o : IterOracle) (s : MipData) (sr : SearchS)
    (b : Option Basis) (h1 : (outerPlunge o s sr).ex ≠ PlungeExit.oracleEmpty)
    (h2 : o.propInfeasible = true) :
    (outerIteration o s sr b).s.nodequeue = [] ∧
    (outerIteration o s sr b).s.pruned_treeweight = 1 ∧
    (outerIteration o s sr b).flag = IterFlag.infeasibleStop ∧
    (outerIteration o s sr b).sr = ⟨none, []⟩ := by
  simp only [outerIteration, if_neg h1, h2, if_true]
  refine ⟨?_, ?_, ?_, ?_⟩ <;> first | trivial | (split <;> rfl)

theorem outerIteration_infeasible_no_install (o : IterOracle) (s : MipData)
    (sr : SearchS) (b : Option Basis)
    (h1 : (outerPlunge o s sr).ex ≠ PlungeExit.oracleEmpty)
    (h2 : o.propInfeasible = true) :
    ∀ n l, Ev.install n l ∉ (outerIteration o s sr b).tr := by
  intro n l hmem
  simp only [outerIteration, if_neg h1, h2, if_true] at hmem
  rcases List.mem_cons.mp hmem with h | he2
  · exact absurd h (by simp)
  rcases List.mem_append.mp he2 with h | he3
  · exact absurd (plungeLoop_tr_mem _ _ _ _ _ h) (by simp [plungeEv])
  rcases List.mem_cons.mp he3 with h | he4
  · exact absurd h (by simp)
  rcases List.mem_cons.mp he4 with h | he5
  · exact absurd h (by simp)
  rcases List.mem_append.mp he5 with h | he6
  · split at h <;> simp only [List.mem_cons, List.not_mem_nil, or_false] at h
    exact absurd h (by simp)
  simp only [List.mem_cons, List.not_mem_nil, or_false] at he6
  rcases he6 with h | h <;> exact absurd h (by simp)

theorem runLoop_stop (os : List IterOracle) (o : IterOracle) (s : MipData)
    (sr : SearchS) (b : Option Basis) (nd : Node)
    (hn : sr.currentNode = some nd)
    (hf : (outerIteration o s sr b).flag = IterFlag.infeasibleStop) :
    runLoop (o :: os) s sr b =
      ⟨(outerIteration o s sr b).s, (outerIteration o s sr b).sr,
       (outerIteration o s sr b).basis, (outerIteration o s sr b).tr⟩ := by
  simp only [runLoop, hn]
  rw [hf]

theorem outerIteration_nodeCap (o : IterOracle) (s : MipData) (sr : SearchS)
    (b : Option Basis) (hcap : (outerPlunge o s sr).ex = PlungeExit.nodeCap) :
    ∃ rest,
      (outerIteration o s sr b).tr =
        Ev.setLimit (adaptLimit s) :: (outerPlunge o s sr).tr ++
          (Ev.pushOpen
              ((outerPlunge o s sr).sr.openNodes ++
                (outerPlunge o s sr).sr.currentNode.toList)
              ((outerPlunge o s sr).s.nodequeue ++
                ((outerPlunge o s sr).sr.openNodes ++
                  (outerPlunge o s sr).sr.currentNode.toList)) :: rest) := by
  have h1 : (outerPlunge o s sr).ex ≠ PlungeExit.oracleEmpty := by
    rw [hcap]; intro h; cases h
  simp only [outerIteration, if_neg h1]
  split
  · exact ⟨_, rfl⟩
  · exact ⟨_, rfl⟩

theorem outerIteration_clearLimit (o : IterOracle) (s : MipData) (sr : SearchS)
    (b : Option Basis) (h1 : (outerPlunge o s sr).ex ≠ PlungeExit.oracleEmpty)
    (h2 : o.propInfeasible = false) :
    Ev.clearLimit ∈ (outerIteration o s sr b).tr := by
  simp only [outerIteration, if_neg h1]
  rw [if_neg (by simp [h2])]
  simp

theorem outerIteration_count (o : IterOracle) (s : MipData) (sr : SearchS)
    (b : Option Basis) (h1 : (outerPlunge o s sr).ex ≠ PlungeExit.oracleEmpty) :
    (outerIteration o s sr b).tr.countP isSetLB =
      1 + (outerIteration o s sr b).tr.countP isPrunedEval := by
  have hz1 : (outerPlunge o s sr).tr.countP isSetLB = 0 :=
    List.countP_eq_zero.mpr fun e he => by
      simp [plungeEv_not_isSetLB e (plungeLoop_tr_mem _ _ _ _ e he)]
  have hz2 : (outerPlunge o s sr).tr.countP isPrunedEval = 0 :=
    List.countP_eq_zero.mpr fun e he => by
      simp [plungeEv_not_isPrunedEval e (plungeLoop_tr_mem _ _ _ _ e he)]
  simp only [outerIteration, if_neg h1]
  split
  · split <;>
      simp [List.countP_cons, List.countP_append, hz1, hz2, isSetLB,
        isPrunedEval]
  · split <;> split <;>
      simp [List.countP_cons, List.countP_append, hz1, hz2, isSetLB,
        isPrunedEval, installLoop_countP] <;> omega

theorem diveFollowed_cons_ne (e : Ev) (h : isDive e = false) (t : List Ev) :
    diveFollowed (e :: t) = diveFollowed t := by
  cases e <;> simp_all [isDive, diveFollowed]

theorem diveFollowed_append_noDive (l r : List Ev)
    (h : ∀ e ∈ l, isDive e = false) :
    diveFollowed (l ++ r) = diveFollowed r := by
  induction l with
  | nil => rfl
  | cons e l ih =>
    rw [List.cons_append, diveFollowed_cons_ne e (h e (by simp)),
      ih fun e2 he2 => h e2 (by simp [he2])]

theorem backtrack_true (sr : SearchS) (sr2 : SearchS)
    (h : SearchS.backtrack sr = (true, sr2)) :
    ∃ n init0, sr2 = ⟨some n, init0⟩ := by
  unfold SearchS.backtrack at h
  rcases hs : splitLast sr.openNodes with _ | ⟨init0, n⟩ <;> rw [hs] at h
  · cases h
  · exact ⟨n, init0, by injection h with h1 h2; exact h2.symm⟩

theorem diveFollowed_block (t : List Ev) :
    diveFollowed (Ev.dive :: Ev.incLeaves :: Ev.flushStats :: t) =
      diveFollowed t := rfl

theorem plungeLoop_spec (ps : Nat) (steps : List PlungeStep) (s : MipData)
    (sr : SearchS) :
    diveFollowed (plungeLoop ps steps s sr).tr = true ∧
    ((plungeLoop ps steps s sr).ex = PlungeExit.backtrackFail →
      (plungeLoop ps steps s sr).tr.getLast? = some (Ev.backtrackRes false)) ∧
    ((plungeLoop ps steps s sr).ex = PlungeExit.estimateCutoff →
      ∃ n, (plungeLoop ps steps s sr).sr.currentNode = some n ∧
        EInt.ble (plungeLoop ps steps s sr).s.upper_limit
          (EInt.fin n.estimate) = true ∧
        (plungeLoop ps steps s sr).tr.getLast? =
          some (Ev.estCheck (EInt.fin n.estimate)
            (plungeLoop ps steps s sr).s.upper_limit)) ∧
    ((plungeLoop ps steps s sr).ex = PlungeExit.nodeCap →
      1000 ≤ (plungeLoop ps steps s sr).s.num_nodes - ps ∧
      (plungeLoop ps steps s sr).tr.getLast? =
        some (Ev.capCheck ((plungeLoop ps steps s sr).s.num_nodes - ps))) ∧
    (∀ bk, Ev.backtrackRes bk ∈ (plungeLoop ps steps s sr).tr → bk = false →
      (plungeLoop ps steps s sr).ex = PlungeExit.backtrackFail) ∧
    (∀ e ul, Ev.estCheck e ul ∈ (plungeLoop ps steps s sr).tr →
      EInt.ble ul e = true →
      (plungeLoop ps steps s sr).ex = PlungeExit.estimateCutoff) ∧
    (∀ c, Ev.capCheck c ∈ (plungeLoop ps steps s sr).tr → 1000 ≤ c →
      (plungeLoop ps steps s sr).ex = PlungeExit.nodeCap) := by
  induction steps generalizing s sr with
  | nil =>
    simp only [plungeLoop]
    refine ⟨rfl, ?_, ?_, ?_, ?_, ?_, ?_⟩
    · intro h; exact absurd h (by simp)
    · intro h; exact absurd h (by simp)
    · intro h; exact absurd h (by simp)
    · intro bk hm hf; exact absurd hm (by simp)
    · intro e ul hm hb; exact absurd hm (by simp)
    · intro c hm hb; exact absurd hm (by simp)
  | cons st steps ih =>
    simp only [plungeLoop, diveEffect]
    split
    · dsimp only
      refine ⟨rfl, fun _ => rfl, ?_, ?_,
        fun _ _ _ => rfl, ?_, ?_⟩
      · intro h; exact absurd h (by simp)
      · intro h; exact absurd h (by simp)
      · intro e ul hm hb
        simp only [List.mem_cons, List.not_mem_nil, or_false] at hm
        rcases hm with h | h | h | h <;> exact absurd h (by simp)
      · intro c hm hb
        simp only [List.mem_cons, List.not_mem_nil, or_false] at hm
        rcases hm with h | h | h | h <;> exact absurd h (by simp)
    · rename_i sr2 hbk
      obtain ⟨cur, init0, hsr2⟩ := backtrack_true _ _ hbk
      subst hsr2
      dsimp only
      split
      · rename_i hble
        refine ⟨rfl, ?_, fun _ => ⟨cur, rfl, hble, rfl⟩,
          ?_, ?_, fun _ _ _ _ => rfl, ?_⟩
        · intro h; exact absurd h (by simp)
        · intro h; exact absurd h (by simp)
        · intro bk hm hf
          simp only [List.mem_cons, List.not_mem_nil, or_false] at hm
          rcases hm with h | h | h | h | h
          · exact absurd h (by simp)
          · exact absurd h (by simp)
          · exact absurd h (by simp)
          · injection h with h2; exact absurd hf (by simp [h2])
          · exact absurd h (by simp)
        · intro c hm hb
          simp only [List.mem_cons, List.not_mem_nil, or_false] at hm
          rcases hm with h | h | h | h | h <;> exact absurd h (by simp)
      · rename_i hble
        split
        · rename_i hcap
          refine ⟨rfl, ?_, ?_,
            fun _ => ⟨hcap, rfl⟩, ?_, ?_, fun _ _ _ => rfl⟩
          · intro h; exact absurd h (by simp)
          · intro h; exact absurd h (by simp)
          · intro bk hm hf
            simp only [List.mem_cons, List.not_mem_nil, or_false] at hm
            rcases hm with h | h | h | h | h | h
            · exact absurd h (by simp)
            · exact absurd h (by simp)
            · exact absurd h (by simp)
            · injection h with h2; exact absurd hf (by simp [h2])
            · exact absurd h (by simp)
            · exact absurd h (by simp)
          · intro e ul hm hb
            simp only [List.mem_cons, List.not_mem_nil, or_false] at hm
            rcases hm with h | h | h | h | h | h
            · exact absurd h (by simp)
            · exact absurd h (by simp)
            · exact absurd h (by simp)
            · exact absurd h (by simp)
            · injection h with h2 h3
              rw [h2, h3] at hb
              exact absurd hb hble
            · exact absurd h (by simp)
        · rename_i hcap
          split
          · rename_i hdisp
            have hIH := ih { s with
                num_nodes := s.num_nodes + st.nodesAdded
                num_leaves := s.num_leaves + 1
                last_displeave := s.num_leaves + 1
                upper_bound := st.upperAfter
                upper_limit := st.limitAfter
                lp := { s.lp with
                          numLpIterations :=
                            s.lp.numLpIterations + st.lpIters } }
              ⟨some cur, init0⟩
            refine ⟨?_, ?_, ?_, ?_, ?_, ?_, ?_⟩
            · rw [diveFollowed_block,
                diveFollowed_cons_ne (Ev.backtrackRes true) rfl,
                diveFollowed_cons_ne (Ev.estCheck _ _) rfl,
                diveFollowed_cons_ne (Ev.capCheck _) rfl,
                List.singleton_append,
                diveFollowed_cons_ne Ev.display rfl]
              exact hIH.1
            · intro hex
              have h2 := hIH.2.1 hex
              have hne : (plungeLoop ps steps
                  { s with
                  num_nodes := s.num_nodes + st.nodesAdded
                  num_leaves := s.num_leaves + 1
                  last_displeave := s.num_leaves + 1
                  upper_bound := st.upperAfter
                  upper_limit := st.limitAfter
                  lp := { s.lp with
                            numLpIterations :=
                              s.lp.numLpIterations + st.lpIters } }
                  ⟨some cur, init0⟩).tr ≠ [] := by
                intro h0; rw [h0] at h2; simp at h2
              exact (List.getLast?_append_of_ne_nil
                [Ev.dive, Ev.incLeaves, Ev.flushStats,
                  Ev.backtrackRes true,
                  Ev.estCheck (EInt.fin cur.estimate) st.limitAfter,
                  Ev.capCheck (s.num_nodes + st.nodesAdded - ps), Ev.display] hne).trans h2
            · intro hex
              obtain ⟨n, hn1, hn2, hn3⟩ := hIH.2.2.1 hex
              have hne : (plungeLoop ps steps
                  { s with
                  num_nodes := s.num_nodes + st.nodesAdded
                  num_leaves := s.num_leaves + 1
                  last_displeave := s.num_leaves + 1
                  upper_bound := st.upperAfter
                  upper_limit := st.limitAfter
                  lp := { s.lp with
                            numLpIterations :=
                              s.lp.numLpIterations + st.lpIters } }
                  ⟨some cur, init0⟩).tr ≠ [] := by
                intro h0; rw [h0] at hn3; simp at hn3
              refine ⟨n, hn1, hn2, ?_⟩
              exact (List.getLast?_append_of_ne_nil
                [Ev.dive, Ev.incLeaves, Ev.flushStats,
                  Ev.backtrackRes true,
                  Ev.estCheck (EInt.fin cur.estimate) st.limitAfter,
                  Ev.capCheck (s.num_nodes + st.nodesAdded - ps), Ev.display] hne).trans hn3
            · intro hex
              obtain ⟨hc1, hc2⟩ := hIH.2.2.2.1 hex
              have hne : (plungeLoop ps steps
                  { s with
                  num_nodes := s.num_nodes + st.nodesAdded
                  num_leaves := s.num_leaves + 1
                  last_displeave := s.num_leaves + 1
                  upper_bound := st.upperAfter
                  upper_limit := st.limitAfter
                  lp := { s.lp with
                            numLpIterations :=
                              s.lp.numLpIterations + st.lpIters } }
                  ⟨some cur, init0⟩).tr ≠ [] := by
                intro h0; rw [h0] at hc2; simp at hc2
              refine ⟨hc1, ?_⟩
              exact (List.getLast?_append_of_ne_nil
                [Ev.dive, Ev.incLeaves, Ev.flushStats,
                  Ev.backtrackRes true,
                  Ev.estCheck (EInt.fin cur.estimate) st.limitAfter,
                  Ev.capCheck (s.num_nodes + st.nodesAdded - ps), Ev.display] hne).trans hc2
            · intro bk hm hf
              simp only [List.mem_cons, List.singleton_append,
                List.mem_append, List.not_mem_nil, or_false] at hm
              rcases hm with h | h | h | h | h | h | h | h
              · exact absurd h (by simp)
              · exact absurd h (by simp)
              · exact absurd h (by simp)
              · injection h with h2; exact absurd hf (by simp [h2])
              · exact absurd h (by simp)
              · exact absurd h (by simp)
              · exact absurd h (by simp)
              · exact hIH.2.2.2.2.1 bk h hf
            · intro e ul hm hb
              simp only [List.mem_cons, List.singleton_append,
                List.mem_append, List.not_mem_nil, or_false] at hm
              rcases hm with h | h | h | h | h | h | h | h
              · exact absurd h (by simp)
              · exact absurd h (by simp)
              · exact absurd h (by simp)
              · exact absurd h (by simp)
              · injection h with h2 h3
                rw [h2, h3] at hb
                simp_all
              · exact absurd h (by simp)
              · exact absurd h (by simp)
              · exact hIH.2.2.2.2.2.1 e ul h hb
            · intro c hm hc
              simp only [List.mem_cons, List.singleton_append,
                List.mem_append, List.not_mem_nil, or_false] at hm
              rcases hm with h | h | h | h | h | h | h | h
              · exact absurd h (by simp)
              · exact absurd h (by simp)
              · exact absurd h (by simp)
              · exact absurd h (by simp)
              · exact absurd h (by simp)
              · injection h with h2
                rw [h2] at hc
                exact absurd hcap (by simp [hc])
              · exact absurd h (by simp)
              · exact hIH.2.2.2.2.2.2 c h hc
          · rename_i hdisp
            have hIH := ih { s with
                num_nodes := s.num_nodes + st.nodesAdded
                num_leaves := s.num_leaves + 1
                upper_bound := st.upperAfter
                upper_limit := st.limitAfter
                lp := { s.lp with
                          numLpIterations :=
                            s.lp.numLpIterations + st.lpIters } }
              ⟨some cur, init0⟩
            refine ⟨?_, ?_, ?_, ?_, ?_, ?_, ?_⟩
            · rw [diveFollowed_block,
                diveFollowed_cons_ne (Ev.backtrackRes true) rfl,
                diveFollowed_cons_ne (Ev.estCheck _ _) rfl,
                diveFollowed_cons_ne (Ev.capCheck _) rfl,
                List.nil_append]
              exact hIH.1
            · intro hex
              have h2 := hIH.2.1 hex
              have hne : (plungeLoop ps steps
                  { s with
                  num_nodes := s.num_nodes + st.nodesAdded
                  num_leaves := s.num_leaves + 1
                  upper_bound := st.upperAfter
                  upper_limit := st.limitAfter
                  lp := { s.lp with
                            numLpIterations :=
                              s.lp.numLpIterations + st.lpIters } }
                  ⟨some cur, init0⟩).tr ≠ [] := by
                intro h0; rw [h0] at h2; simp at h2
              exact (List.getLast?_append_of_ne_nil
                [Ev.dive, Ev.incLeaves, Ev.flushStats,
                  Ev.backtrackRes true,
                  Ev.estCheck (EInt.fin cur.estimate) st.limitAfter,
                  Ev.capCheck (s.num_nodes + st.nodesAdded - ps)] hne).trans h2
            · intro hex
              obtain ⟨n, hn1, hn2, hn3⟩ := hIH.2.2.1 hex
              have hne : (plungeLoop ps steps
                  { s with
                  num_nodes := s.num_nodes + st.nodesAdded
                  num_leaves := s.num_leaves + 1
                  upper_bound := st.upperAfter
                  upper_limit := st.limitAfter
                  lp := { s.lp with
                            numLpIterations :=
                              s.lp.numLpIterations + st.lpIters } }
                  ⟨some cur, init0⟩).tr ≠ [] := by
                intro h0; rw [h0] at hn3; simp at hn3
              refine ⟨n, hn1, hn2, ?_⟩
              exact (List.getLast?_append_of_ne_nil
                [Ev.dive, Ev.incLeaves, Ev.flushStats,
                  Ev.backtrackRes true,
                  Ev.estCheck (EInt.fin cur.estimate) st.limitAfter,
                  Ev.capCheck (s.num_nodes + st.nodesAdded - ps)] hne).trans hn3
            · intro hex
              obtain ⟨hc1, hc2⟩ := hIH.2.2.2.1 hex
              have hne : (plungeLoop ps steps
                  { s with
                  num_nodes := s.num_nodes + st.nodesAdded
                  num_leaves := s.num_leaves + 1
                  upper_bound := st.upperAfter
                  upper_limit := st.limitAfter
                  lp := { s.lp with
                            numLpIterations :=
                              s.lp.numLpIterations + st.lpIters } }
                  ⟨some cur, init0⟩).tr ≠ [] := by
                intro h0; rw [h0] at hc2; simp at hc2
              refine ⟨hc1, ?_⟩
              exact (List.getLast?_append_of_ne_nil
                [Ev.dive, Ev.incLeaves, Ev.flushStats,
                  Ev.backtrackRes true,
                  Ev.estCheck (EInt.fin cur.estimate) st.limitAfter,
                  Ev.capCheck (s.num_nodes + st.nodesAdded - ps)] hne).trans hc2
            · intro bk hm hf
              simp only [List.mem_cons, List.nil_append,
                List.not_mem_nil, or_false] at hm
              rcases hm with h | h | h | h | h | h | h
              · exact absurd h (by simp)
              · exact absurd h (by simp)
              · exact absurd h (by simp)
              · injection h with h2; exact absurd hf (by simp [h2])
              · exact absurd h (by simp)
              · exact absurd h (by simp)
              · exact hIH.2.2.2.2.1 bk h hf
            · intro e ul hm hb
              simp only [List.mem_cons, List.nil_append,
                List.not_mem_nil, or_false] at hm
              rcases hm with h | h | h | h | h | h | h
              · exact absurd h (by simp)
              · exact absurd h (by simp)
              · exact absurd h (by simp)
              · exact absurd h (by simp)
              · injection h with h2 h3
                rw [h2, h3] at hb
                simp_all
              · exact absurd h (by simp)
              · exact hIH.2.2.2.2.2.1 e ul h hb
            · intro c hm hc
              simp only [List.mem_cons, List.nil_append,
                List.not_mem_nil, or_false] at hm
              rcases hm with h | h | h | h | h | h | h
              · exact absurd h (by simp)
              · exact absurd h (by simp)
              · exact absurd h (by simp)
              · exact absurd h (by simp)
              · exact absurd h (by simp)
              · injection h with h2
                rw [h2] at hc
                exact absurd hcap (by simp [hc])
              · exact hIH.2.2.2.2.2.2 c h hc

theorem run_solved_root (root : MipData) (iters : List IterOracle)
    (h : root.nodequeue = []) :
    run root iters = ⟨root, [Ev.printSolvedRoot], true⟩ := by
  simp [run, h]

theorem run_no_query (root : MipData) (iters : List IterOracle) :
    Ev.queryShouldStop ∉ (run root iters).tr := by
  intro hmem
  simp only [run] at hmem
  split at hmem
  · simp at hmem
  · split at hmem
    · simp at hmem
    · simp only [List.mem_cons] at hmem
      rcases hmem with h | h | h | h
      · exact absurd h (by simp)
      · exact absurd h (by simp)
      · exact absurd h (by simp)
      · exact runLoop_no_query _ _ _ _ h

/-- Claim C1 (corrected): inside the tree-search loop, the node installed
from the non-empty queue is obtained via `popBestNode` — the queued node
with the best (minimum) estimate, ties broken by insertion order — not
via `popBestBoundNode` as the spec states: every `popBest` observation in
the install loop's trace is the best-estimate pop from the then-current
queue. -/
theorem claim_C1 (evals : List EvalResult) (s : MipData) (sr : SearchS)
    (b : Option Basis) :
    ∀ n q, Ev.popBest n q ∈ (installLoop evals s sr b).tr →
      ∃ r2, popBestNode q = some (n, r2) :=
  installLoop_popBest evals s sr b

/-- Witness for claim C1 at a concrete queue. -/
theorem claim_C1_witness :
    ∃ r2, popBestNode [⟨0, 5⟩, ⟨1, 0⟩] = some (⟨1, 0⟩, r2) :=
  claim_C1 [erOpt] (mkMD [⟨0, 5⟩, ⟨1, 0⟩]) ⟨none, []⟩ none ⟨1, 0⟩
    [⟨0, 5⟩, ⟨1, 0⟩] (by decide)

/-- Counterexample to claim C1 as stated: on the queue
`[⟨0,5⟩, ⟨1,0⟩]` the best-bound node is `⟨0,5⟩`, but the outer iteration
installs only `⟨1,0⟩`, the best-estimate node. -/
theorem claim_C1_counterexample :
    popBestBoundNode [⟨0, 5⟩, ⟨1, 0⟩] = some (⟨0, 5⟩, [⟨1, 0⟩]) ∧
    Ev.install ⟨1, 0⟩ none ∈
      (outerIteration oCont (mkMD [⟨0, 5⟩, ⟨1, 0⟩]) ⟨some ⟨0, 0⟩, []⟩ none).tr ∧
    onlyInstalls ⟨1, 0⟩
      (outerIteration oCont (mkMD [⟨0, 5⟩, ⟨1, 0⟩]) ⟨some ⟨0, 0⟩, []⟩ none).tr
      = true ∧
    (⟨1, 0⟩ : Node) ≠ ⟨0, 5⟩ := by decide

/-- Claim C2 (confirmed): if global propagation after a plunge marks the
domain infeasible, the orchestrator clears the node queue, sets the
pruned tree weight to one, leaves the controller without a node, installs
no node during the iteration, and the search loop stops there. -/
theorem claim_C2 (o : IterOracle) (s : MipData) (sr : SearchS)
    (b : Option Basis) (os : List IterOracle) (nd : Node)
    (hn : sr.currentNode = some nd)
    (h1 : (outerPlunge o s sr).ex ≠ PlungeExit.oracleEmpty)
    (h2 : o.propInfeasible = true) :
    (outerIteration o s sr b).s.nodequeue = [] ∧
    (outerIteration o s sr b).s.pruned_treeweight = 1 ∧
    (outerIteration o s sr b).sr = ⟨none, []⟩ ∧
    (∀ n l, Ev.install n l ∉ (outerIteration o s sr b).tr) ∧
    runLoop (o :: os) s sr b =
      ⟨(outerIteration o s sr b).s, (outerIteration o s sr b).sr,
       (outerIteration o s sr b).basis, (outerIteration o s sr b).tr⟩ := by
  obtain ⟨ha, hw, hfl, hsr⟩ := outerIteration_infeasible o s sr b h1 h2
  exact ⟨ha, hw, hsr, outerIteration_infeasible_no_install o s sr b h1 h2,
    runLoop_stop os o s sr b nd hn hfl⟩

/-- Witness for claim C2 at a concrete infeasible propagation. -/
theorem claim_C2_witness :
    (outerIteration oInf (mkMD [⟨1, 1⟩]) ⟨some ⟨0, 0⟩, []⟩ none).s.nodequeue = [] ∧
    (outerIteration oInf (mkMD [⟨1, 1⟩]) ⟨some ⟨0, 0⟩, []⟩ none).s.pruned_treeweight = 1 ∧
    (outerIteration oInf (mkMD [⟨1, 1⟩]) ⟨some ⟨0, 0⟩, []⟩ none).sr = ⟨none, []⟩ ∧
    (∀ n l, Ev.install n l ∉
      (outerIteration oInf (mkMD [⟨1, 1⟩]) ⟨some ⟨0, 0⟩, []⟩ none).tr) ∧
    runLoop [oInf] (mkMD [⟨1, 1⟩]) ⟨some ⟨0, 0⟩, []⟩ none =
      ⟨(outerIteration oInf (mkMD [⟨1, 1⟩]) ⟨some ⟨0, 0⟩, []⟩ none).s,
       (outerIteration oInf (mkMD [⟨1, 1⟩]) ⟨some ⟨0, 0⟩, []⟩ none).sr,
       (outerIteration oInf (mkMD [⟨1, 1⟩]) ⟨some ⟨0, 0⟩, []⟩ none).basis,
       (outerIteration oInf (mkMD [⟨1, 1⟩]) ⟨some ⟨0, 0⟩, []⟩ none).tr⟩ :=
  claim_C2 oInf (mkMD [⟨1, 1⟩]) ⟨some ⟨0, 0⟩, []⟩ none [] ⟨0, 0⟩ rfl
    (by decide) rfl

/-- Claim C3 (confirmed): every plunge-loop iteration performs dive,
leaf-count increment and statistics flush in that order; the loop exits
with `backtrackFail` exactly on a failed backtrack, with
`estimateCutoff` exactly when the backtracked node's estimate reaches the
incumbent cutoff, and with `nodeCap` exactly when at least 1000 nodes
were created since the plunge started — and a failed check exits
immediately, so the loop stops only under one of these three
conditions. -/
theorem claim_C3 (ps : Nat) (steps : List PlungeStep) (s : MipData)
    (sr : SearchS) :
    diveFollowed (plungeLoop ps steps s sr).tr = true ∧
    ((plungeLoop ps steps s sr).ex = PlungeExit.backtrackFail →
      (plungeLoop ps steps s sr).tr.getLast? = some (Ev.backtrackRes false)) ∧
    ((plungeLoop ps steps s sr).ex = PlungeExit.estimateCutoff →
      ∃ n, (plungeLoop ps steps s sr).sr.currentNode = some n ∧
        EInt.ble (plungeLoop ps steps s sr).s.upper_limit
          (EInt.fin n.estimate) = true ∧
        (plungeLoop ps steps s sr).tr.getLast? =
          some (Ev.estCheck (EInt.fin n.estimate)
            (plungeLoop ps steps s sr).s.upper_limit)) ∧
    ((plungeLoop ps steps s sr).ex = PlungeExit.nodeCap →
      1000 ≤ (plungeLoop ps steps s sr).s.num_nodes - ps ∧
      (plungeLoop ps steps s sr).tr.getLast? =
        some (Ev.capCheck ((plungeLoop ps steps s sr).s.num_nodes - ps))) ∧
    (∀ bk, Ev.backtrackRes bk ∈ (plungeLoop ps steps s sr).tr → bk = false →
      (plungeLoop ps steps s sr).ex = PlungeExit.backtrackFail) ∧
    (∀ e ul, Ev.estCheck e ul ∈ (plungeLoop ps steps s sr).tr →
      EInt.ble ul e = true →
      (plungeLoop ps steps s sr).ex = PlungeExit.estimateCutoff) ∧
    (∀ c, Ev.capCheck c ∈ (plungeLoop ps steps s sr).tr → 1000 ≤ c →
      (plungeLoop ps steps s sr).ex = PlungeExit.nodeCap) :=
  plungeLoop_spec ps steps s sr

/-- Witness for claim C3 at a concrete failed-backtrack plunge. -/
theorem claim_C3_witness :
    (plungeLoop 1 [stepFail] (mkMD []) ⟨some ⟨0, 0⟩, []⟩).tr.getLast? =
      some (Ev.backtrackRes false) :=
  (claim_C3 1 [stepFail] (mkMD []) ⟨some ⟨0, 0⟩, []⟩).2.1 (by decide)

/-- Claim C4 (confirmed): when the plunge stops at the 1000-node cap, the
event immediately after the plunge trace pushes all remaining open nodes
(the collected siblings and the current node) onto the queue, and every
such open node is in the resulting queue. -/
theorem claim_C4 (o : IterOracle) (s : MipData) (sr : SearchS)
    (b : Option Basis) (hcap : (outerPlunge o s sr).ex = PlungeExit.nodeCap) :
    ∃ rest,
      (outerIteration o s sr b).tr =
        Ev.setLimit (adaptLimit s) :: (outerPlunge o s sr).tr ++
          (Ev.pushOpen
              ((outerPlunge o s sr).sr.openNodes ++
                (outerPlunge o s sr).sr.currentNode.toList)
              ((outerPlunge o s sr).s.nodequeue ++
                ((outerPlunge o s sr).sr.openNodes ++
                  (outerPlunge o s sr).sr.currentNode.toList)) :: rest) ∧
      ∀ n ∈ (outerPlunge o s sr).sr.openNodes,
        n ∈ (outerPlunge o s sr).s.nodequeue ++
          ((outerPlunge o s sr).sr.openNodes ++
            (outerPlunge o s sr).sr.currentNode.toList) := by
  obtain ⟨rest, hr⟩ := outerIteration_nodeCap o s sr b hcap
  exact ⟨rest, hr, fun n hn =>
    List.mem_append.mpr (Or.inr (List.mem_append.mpr (Or.inl hn)))⟩

/-- Witness for claim C4 at a concrete capped plunge. -/
theorem claim_C4_witness :
    ∃ rest,
      (outerIteration oCap (mkMD [⟨1, 1⟩]) ⟨some ⟨0, 0⟩, []⟩ none).tr =
        Ev.setLimit (adaptLimit (mkMD [⟨1, 1⟩])) ::
          (outerPlunge oCap (mkMD [⟨1, 1⟩]) ⟨some ⟨0, 0⟩, []⟩).tr ++
          (Ev.pushOpen
              ((outerPlunge oCap (mkMD [⟨1, 1⟩]) ⟨some ⟨0, 0⟩, []⟩).sr.openNodes ++
                (outerPlunge oCap (mkMD [⟨1, 1⟩]) ⟨some ⟨0, 0⟩, []⟩).sr.currentNode.toList)
              ((outerPlunge oCap (mkMD [⟨1, 1⟩]) ⟨some ⟨0, 0⟩, []⟩).s.nodequeue ++
                ((outerPlunge oCap (mkMD [⟨1, 1⟩]) ⟨some ⟨0, 0⟩, []⟩).sr.openNodes ++
                  (outerPlunge oCap (mkMD [⟨1, 1⟩]) ⟨some ⟨0, 0⟩, []⟩).sr.currentNode.toList)) :: rest) ∧
      ∀ n ∈ (outerPlunge oCap (mkMD [⟨1, 1⟩]) ⟨some ⟨0, 0⟩, []⟩).sr.openNodes,
        n ∈ (outerPlunge oCap (mkMD [⟨1, 1⟩]) ⟨some ⟨0, 0⟩, []⟩).s.nodequeue ++
          ((outerPlunge oCap (mkMD [⟨1, 1⟩]) ⟨some ⟨0, 0⟩, []⟩).sr.openNodes ++
            (outerPlunge oCap (mkMD [⟨1, 1⟩]) ⟨some ⟨0, 0⟩, []⟩).sr.currentNode.toList) :=
  claim_C4 oCap (mkMD [⟨1, 1⟩]) ⟨some ⟨0, 0⟩, []⟩ none (by decide)

/-- Claim C5 (confirmed): every lower-bound update in an outer iteration
sets the bound to the minimum of the incumbent bound and the best lower
bound of the observed queue, and such an update happens exactly once
after the open nodes are pushed plus once after each pruned queue-popped
node. -/
theorem claim_C5 (o : IterOracle) (s : MipData) (sr : SearchS)
    (b : Option Basis) :
    (∀ v ub q, Ev.setLB v ub q ∈ (outerIteration o s sr b).tr →
      v = EInt.emin ub (getBestLowerBound q)) ∧
    ((outerPlunge o s sr).ex ≠ PlungeExit.oracleEmpty →
      (outerIteration o s sr b).tr.countP isSetLB =
        1 + (outerIteration o s sr b).tr.countP isPrunedEval) :=
  ⟨outerIteration_setLB_formula o s sr b, outerIteration_count o s sr b⟩

/-- Witness for claim C5 at a concrete iteration. -/
theorem claim_C5_witness :
    (outerIteration oCont (mkMD [⟨0, 5⟩, ⟨1, 0⟩]) ⟨some ⟨0, 0⟩, []⟩ none).tr.countP
        isSetLB =
      1 + (outerIteration oCont (mkMD [⟨0, 5⟩, ⟨1, 0⟩]) ⟨some ⟨0, 0⟩, []⟩
        none).tr.countP isPrunedEval :=
  (claim_C5 oCont (mkMD [⟨0, 5⟩, ⟨1, 0⟩]) ⟨some ⟨0, 0⟩, []⟩ none).2 (by decide)

/-- Claim C6 (confirmed): every outer iteration starts by setting the LP
iteration limit to ten times the integer running average of LP iterations
per node (clamped to at least one node), clears the limit before the
install loop on every non-infeasible iteration, and every node installed
from the queue sees no iteration limit. -/
theorem claim_C6 (o : IterOracle) (s : MipData) (sr : SearchS)
    (b : Option Basis) :
    (outerIteration o s sr b).tr.head? = some (Ev.setLimit (adaptLimit s)) ∧
    adaptLimit s = 10 * (s.lp.numLpIterations / max 1 s.num_nodes) ∧
    (∀ n l, Ev.install n l ∈ (outerIteration o s sr b).tr → l = none) ∧
    ((outerPlunge o s sr).ex ≠ PlungeExit.oracleEmpty →
      o.propInfeasible = false →
      Ev.clearLimit ∈ (outerIteration o s sr b).tr) :=
  ⟨outerIteration_head o s sr b, rfl, outerIteration_install_limit o s sr b,
    outerIteration_clearLimit o s sr b⟩

/-- Witness for claim C6 at a concrete iteration. -/
theorem claim_C6_witness :
    Ev.clearLimit ∈
      (outerIteration oCont (mkMD [⟨7, 7⟩]) ⟨some ⟨0, 0⟩, []⟩ none).tr :=
  (claim_C6 oCont (mkMD [⟨7, 7⟩]) ⟨some ⟨0, 0⟩, []⟩ none).2.2.2 (by decide) rfl

/-- Claim C7 (corrected): the install loop recovers the shared basis
handle exactly when the handle is non-null and a node is popped from the
queue — the decision is independent of which node is resumed, so no
structural-adjacency condition is checked. -/
theorem claim_C7 (evals : List EvalResult) (s : MipData) (sr : SearchS)
    (b : Option Basis) :
    Ev.recoverB ∈ (installLoop evals s sr b).tr ↔
      (b.isSome = true ∧ s.nodequeue ≠ []) :=
  installLoop_recoverB evals s sr b

/-- Witness for claim C7 at a concrete state. -/
theorem claim_C7_witness :
    Ev.recoverB ∈ (installLoop [] (mkMD [⟨3, 3⟩]) ⟨none, []⟩ (some 3)).tr :=
  (claim_C7 [] (mkMD [⟨3, 3⟩]) ⟨none, []⟩ (some 3)).mpr (by decide)

/-- Counterexample to claim C7 as stated: with the same non-null handle,
the basis is stored into the relaxation and recovered for two entirely
unrelated resumed nodes alike — no applicability or adjacency check
suppresses the reuse. -/
theorem claim_C7_counterexample :
    Ev.setStoredB (some 7) ∈
      (installLoop [erOpt] (mkMD [⟨0, 1⟩]) ⟨none, []⟩ (some 7)).tr ∧
    Ev.recoverB ∈
      (installLoop [erOpt] (mkMD [⟨0, 1⟩]) ⟨none, []⟩ (some 7)).tr ∧
    Ev.recoverB ∈
      (installLoop [erOpt] (mkMD [⟨9, 9⟩]) ⟨none, []⟩ (some 7)).tr ∧
    (⟨0, 1⟩ : Node) ≠ ⟨9, 9⟩ := by decide

/-- Claim C8 (corrected): the orchestrator never queries an external
should-stop signal — no run, whatever the collaborator behaviour, emits a
`queryShouldStop` event; the search loop exits only when the controller
holds no node or on the infeasibility break. -/
theorem claim_C8 (root : MipData) (iters : List IterOracle) :
    Ev.queryShouldStop ∉ (run root iters).tr :=
  run_no_query root iters

/-- Witness for claim C8 at a concrete run. -/
theorem claim_C8_witness :
    Ev.queryShouldStop ∉ (run (mkMD [⟨2, 2⟩]) [oInf]).tr :=
  claim_C8 (mkMD [⟨2, 2⟩]) [oInf]

/-- Counterexample to claim C8 as stated: a run that performs a full
plunge (a `dive` event occurs) contains not a single should-stop query,
contradicting "at least once per plunge". -/
theorem claim_C8_counterexample :
    Ev.dive ∈ (run (mkMD [⟨0, 0⟩]) [oCont]).tr ∧
    (run (mkMD [⟨0, 0⟩]) [oCont]).tr.countP
      (fun e => e == Ev.queryShouldStop) = 0 := by decide

/-- Claim C9 (confirmed): if the queue is empty after the root node was
evaluated, `run` reports that the model was solved in the root node and
returns at once — no node is ever installed and no dive happens. -/
theorem claim_C9 (root : MipData) (iters : List IterOracle)
    (h : root.nodequeue = []) :
    run root iters = ⟨root, [Ev.printSolvedRoot], true⟩ ∧
    (∀ n l, Ev.install n l ∉ (run root iters).tr) ∧
    Ev.dive ∉ (run root iters).tr := by
  have hr := run_solved_root root iters h
  refine ⟨hr, ?_, ?_⟩
  · intro n l hm
    rw [hr] at hm
    simp at hm
  · intro hm
    rw [hr] at hm
    simp at hm

/-- Witness for claim C9 on an empty root queue. -/
theorem claim_C9_witness :
    run (mkMD []) [] = ⟨mkMD [], [Ev.printSolvedRoot], true⟩ :=
  (claim_C9 (mkMD []) [] rfl).1

/-- Claim C10 (confirmed): a queue-installed node that survived pruning
triggers `storeBasis` exactly when the relaxation status after separation
is neither `Error` nor `NotSet`; on `Error` or `NotSet` no basis is
stored and the shared handle is refreshed from the previously stored
basis unchanged. -/
theorem claim_C10 (evals : List EvalResult) (s : MipData) (sr : SearchS)
    (b : Option Basis) :
    ∀ st, Ev.evalNode false st ∈ (installLoop evals s sr b).tr →
      ((st = LpStatus.Error ∨ st = LpStatus.NotSet) →
        Ev.storeB ∉ (installLoop evals s sr b).tr ∧
          (installLoop evals s sr b).basis =
            (if b.isSome then b else s.lp.storedBasis)) ∧
      (st ≠ LpStatus.Error → st ≠ LpStatus.NotSet →
        Ev.storeB ∈ (installLoop evals s sr b).tr) :=
  installLoop_storeBasis evals s sr b

/-- Witness for claim C10 at a concrete erroring evaluation. -/
theorem claim_C10_witness :
    Ev.storeB ∉ (installLoop [erErr] (mkMD [⟨1, 1⟩]) ⟨none, []⟩ (some 4)).tr ∧
    (installLoop [erErr] (mkMD [⟨1, 1⟩]) ⟨none, []⟩ (some 4)).basis = some 4 := by
  have h := (claim_C10 [erErr] (mkMD [⟨1, 1⟩]) ⟨none, []⟩ (some 4)
    LpStatus.Error (by decide)).1 (Or.inl rfl)
  exact ⟨h.1, h.2⟩

end HighsMip
